import Mathlib

/-!
Verification of the natural-language specification of the
`retrieval_augmented_generation` repository against a shallow Lean embedding
of its Python sources.

Python strings are modelled as `List Char`.  Python functions from
`src/utils/text_utils.py`, `src/app/document_processing/pdf_loader.py`,
`src/app/document_processing/layout_analysis.py`,
`src/app/indexing/index_manager.py`, `src/app/query_engine/query_processor.py`
and `src/app/core/service.py` are embedded as executable Lean definitions.
Exception-raising code is modelled with `Except`; code that catches all
exceptions is modelled as a total function on the caught result.
-/

namespace RAG

/-- Characters of a string literal, as a list (helper for concrete inputs). -/
def strL (s : String) : List Char := s.data

/-- `startsWithL l pat`: `pat` is a prefix of `l`. -/
def startsWithL : List Char → List Char → Bool
  | _, [] => true
  | [], _ :: _ => false
  | c :: cs, p :: ps => c == p && startsWithL cs ps

/-- `containsSeq pat l`: `pat` occurs contiguously somewhere in `l`
(the semantics of an unanchored literal `re.search` / Python `in`). -/
def containsSeq (pat : List Char) : List Char → Bool
  | [] => startsWithL [] pat
  | c :: t => startsWithL (c :: t) pat || containsSeq pat t

/-- `endsWithL l pat`: `pat` is a suffix of `l`. -/
def endsWithL (l pat : List Char) : Bool := startsWithL l.reverse pat.reverse

/-- What `re.sub(r'\n{3,}', '\n\n', ·)` emits for a maximal newline run of
length `k`: runs of three or more newlines are replaced by exactly two,
shorter runs are kept. -/
def emitNl (k : Nat) : List Char :=
  if 3 ≤ k then ['\n', '\n'] else List.replicate k '\n'

/-- State machine for `re.sub(r'\n{3,}', '\n\n', text)` from
`src/utils/text_utils.py` (`clean_text`): `k` counts the newlines of the
maximal run currently being read. -/
def cnGo : Nat → List Char → List Char
  | k, [] => emitNl k
  | k, c :: t => if c == '\n' then cnGo (k + 1) t else emitNl k ++ c :: cnGo 0 t

/-- `re.sub(r'\n{3,}', '\n\n', text)`: every maximal run of three or more
consecutive newlines is replaced by exactly two newlines. -/
def collapseNewlines (l : List Char) : List Char := cnGo 0 l

/-- State machine for `re.sub(r' +', ' ', text)`: `prev` records whether the
previous character was a space (so further spaces of the same run are
dropped). -/
def csGo : Bool → List Char → List Char
  | _, [] => []
  | prev, c :: t =>
    if c == ' ' then (if prev then csGo true t else ' ' :: csGo true t)
    else c :: csGo false t

/-- `re.sub(r' +', ' ', text)`: every maximal run of spaces is replaced by a
single space. -/
def collapseSpaces (l : List Char) : List Char := csGo false l

/-- The characters removed by Python `str.strip()` (modelling CPython's
default whitespace set, restricted to ASCII). -/
def pyIsSpace (c : Char) : Bool :=
  c == ' ' || c == '\t' || c == '\n' || c == '\r' || c == '\x0b' || c == '\x0c'

/-- Python `str.lstrip()`. -/
def pyStripLeft (l : List Char) : List Char := l.dropWhile pyIsSpace

/-- Python `str.rstrip()`. -/
def pyStripRight (l : List Char) : List Char :=
  (l.reverse.dropWhile pyIsSpace).reverse

/-- Python `str.strip()`. -/
def pyStrip (l : List Char) : List Char := pyStripRight (pyStripLeft l)

/-- `clean_text` from `src/utils/text_utils.py`:
`re.sub(r'\n{3,}', '\n\n', text)`, then `re.sub(r' +', ' ', text)`,
then `text.strip()`. -/
def clean_text (l : List Char) : List Char :=
  pyStrip (collapseSpaces (collapseNewlines l))

/-- The three-newline pattern collapsed by `clean_text`. -/
def nlT : List Char := ['\n', '\n', '\n']

/-- The double-space pattern collapsed by `clean_text`. -/
def spT : List Char := [' ', ' ']

theorem startsWithL_nil (l : List Char) : startsWithL l [] = true := by
  cases l <;> rfl

theorem containsSeq_nil_pat (l : List Char) : containsSeq [] l = true := by
  induction l with
  | nil => rfl
  | cons c t ih => simp [containsSeq, startsWithL]

theorem containsSeq_cons_of {pat t : List Char} (c : Char)
    (h : containsSeq pat t = true) : containsSeq pat (c :: t) = true := by
  simp [containsSeq, h]

theorem containsSeq_tail {pat t : List Char} {c : Char}
    (h : containsSeq pat (c :: t) = false) : containsSeq pat t = false := by
  simp only [containsSeq, Bool.or_eq_false_iff] at h
  exact h.2

theorem startsWithL_head_false {pat t : List Char} {c : Char}
    (h : containsSeq pat (c :: t) = false) : startsWithL (c :: t) pat = false := by
  simp only [containsSeq, Bool.or_eq_false_iff] at h
  exact h.1

theorem containsSeq_append_right {pat b : List Char} (a : List Char)
    (h : containsSeq pat b = true) : containsSeq pat (a ++ b) = true := by
  induction a with
  | nil => simpa using h
  | cons c a' ih => exact containsSeq_cons_of c ih

theorem startsWithL_append_left {b : List Char} :
    ∀ {pat a : List Char}, startsWithL a pat = true → startsWithL (a ++ b) pat = true := by
  intro pat
  induction pat with
  | nil => intro a _; exact startsWithL_nil _
  | cons p ps ih =>
    intro a h
    cases a with
    | nil => simp [startsWithL] at h
    | cons c cs =>
      simp only [startsWithL, Bool.and_eq_true] at h
      simp only [List.cons_append, startsWithL, Bool.and_eq_true]
      exact ⟨h.1, ih h.2⟩

theorem containsSeq_append_left {pat : List Char} (b : List Char) :
    ∀ {a : List Char}, containsSeq pat a = true → containsSeq pat (a ++ b) = true := by
  intro a
  induction a with
  | nil =>
    intro h
    cases pat with
    | nil => exact containsSeq_nil_pat _
    | cons p ps => simp [containsSeq, startsWithL] at h
  | cons c a' ih =>
    intro h
    simp only [containsSeq, Bool.or_eq_true] at h
    rcases h with h | h
    · have := startsWithL_append_left (b := b) h
      simp only [List.cons_append] at this ⊢
      simp [containsSeq, this]
    · exact containsSeq_cons_of c (ih h)

theorem head?_dropWhile_false {p : Char → Bool} :
    ∀ {l : List Char} {c : Char}, (l.dropWhile p).head? = some c → p c = false := by
  intro l
  induction l with
  | nil => intro c h; simp [List.dropWhile] at h
  | cons x xs ih =>
    intro c h
    rw [List.dropWhile_cons] at h
    cases hx : p x with
    | true => rw [hx, if_pos rfl] at h; exact ih h
    | false =>
      rw [hx] at h
      simp only [Bool.false_eq_true, if_false, List.head?_cons, Option.some.injEq] at h
      subst h
      exact hx

theorem dropWhile_eq_self_of_head {p : Char → Bool} {l : List Char}
    (h : ∀ c, l.head? = some c → p c = false) : l.dropWhile p = l := by
  cases l with
  | nil => rfl
  | cons x xs =>
    rw [List.dropWhile_cons, if_neg]
    simp [h x rfl]

theorem dropWhile_append_singleton {p : Char → Bool} {c : Char} (hc : p c = false) :
    ∀ a : List Char, ∃ ys, (a ++ [c]).dropWhile p = ys ++ [c] := by
  intro a
  induction a with
  | nil =>
    refine ⟨[], ?_⟩
    simp [List.dropWhile_cons, hc]
  | cons x a' ih =>
    rw [List.cons_append, List.dropWhile_cons]
    cases hx : p x with
    | true => simpa using ih
    | false => exact ⟨x :: a', by simp⟩

theorem head?_pyStripRight {m : List Char} {c : Char}
    (hc : pyIsSpace c = false) (h : m.head? = some c) :
    (pyStripRight m).head? = some c := by
  cases m with
  | nil => simp at h
  | cons x t =>
    simp only [List.head?_cons, Option.some.injEq] at h
    subst h
    obtain ⟨ys, hys⟩ := dropWhile_append_singleton (p := pyIsSpace) hc t.reverse
    rw [pyStripRight, List.reverse_cons, hys, List.reverse_append]
    simp

theorem getLast?_pyStripRight_false {m : List Char} {c : Char}
    (h : (pyStripRight m).getLast? = some c) : pyIsSpace c = false := by
  rw [pyStripRight, List.getLast?_reverse] at h
  exact head?_dropWhile_false h

theorem pyStrip_head_false {l : List Char} {c : Char}
    (h : (pyStrip l).head? = some c) : pyIsSpace c = false := by
  rw [pyStrip] at h
  cases hm : (pyStripLeft l).head? with
  | none =>
    cases hnil : pyStripLeft l with
    | nil => rw [pyStripRight] at h; simp [hnil] at h
    | cons x t => rw [hnil] at hm; simp at hm
  | some x =>
    have hx : pyIsSpace x = false := head?_dropWhile_false hm
    have := head?_pyStripRight hx hm
    rw [this] at h
    cases h
    exact hx

theorem pyStrip_getLast?_false {l : List Char} {c : Char}
    (h : (pyStrip l).getLast? = some c) : pyIsSpace c = false :=
  getLast?_pyStripRight_false h

theorem pyStripRight_eq_self {m : List Char}
    (h : ∀ c, m.getLast? = some c → pyIsSpace c = false) : pyStripRight m = m := by
  rw [pyStripRight, dropWhile_eq_self_of_head, List.reverse_reverse]
  intro c hc
  rw [List.head?_reverse] at hc
  exact h c hc

theorem pyStrip_idem (l : List Char) : pyStrip (pyStrip l) = pyStrip l := by
  have h1 : pyStripLeft (pyStrip l) = pyStrip l :=
    dropWhile_eq_self_of_head (fun c hc => pyStrip_head_false hc)
  show pyStripRight (pyStripLeft (pyStrip l)) = pyStrip l
  rw [h1]
  exact pyStripRight_eq_self (fun c hc => pyStrip_getLast?_false hc)

theorem containsSeq_pyStripRight {pat m : List Char}
    (h : containsSeq pat (pyStripRight m) = true) : containsSeq pat m = true := by
  have hm : m = pyStripRight m ++ (m.reverse.takeWhile pyIsSpace).reverse := by
    conv_lhs => rw [← List.reverse_reverse m,
      ← List.takeWhile_append_dropWhile (p := pyIsSpace) (l := m.reverse)]
    rw [List.reverse_append]
    rfl
  rw [hm]
  exact containsSeq_append_left _ h

theorem containsSeq_pyStrip {pat l : List Char}
    (h : containsSeq pat (pyStrip l) = true) : containsSeq pat l = true := by
  have h1 : containsSeq pat (pyStripLeft l) = true := containsSeq_pyStripRight h
  have hl : l = l.takeWhile pyIsSpace ++ pyStripLeft l :=
    (List.takeWhile_append_dropWhile (p := pyIsSpace) (l := l)).symm
  rw [hl]
  exact containsSeq_append_right _ h1

theorem emitNl_zero : emitNl 0 = [] := by decide

theorem cnGo_cons_nl (k : Nat) (t : List Char) : cnGo k ('\n' :: t) = cnGo (k + 1) t := by
  simp [cnGo]

theorem cnGo_cons_ne {c : Char} (hc : c ≠ '\n') (k : Nat) (t : List Char) :
    cnGo k (c :: t) = emitNl k ++ c :: cnGo 0 t := by
  simp [cnGo, hc]

theorem cnGo_replicate (k : Nat) : ∀ (j : Nat) (b : List Char),
    cnGo j (List.replicate k '\n' ++ b) = cnGo (j + k) b := by
  induction k with
  | zero => intro j b; simp
  | succ k ih =>
    intro j b
    rw [List.replicate_succ, List.cons_append, cnGo_cons_nl, ih]
    congr 1
    omega

theorem cnGo_append : ∀ a : List Char, a ≠ [] → a.getLast? ≠ some '\n' →
    ∀ (j : Nat) (Y : List Char), cnGo j (a ++ Y) = cnGo j a ++ cnGo 0 Y := by
  intro a
  induction a with
  | nil => intro h; exact absurd rfl h
  | cons c a' ih =>
    intro _ hlast j Y
    cases a' with
    | nil =>
      have hc : c ≠ '\n' := by intro h; apply hlast; simp [h]
      rw [List.cons_append, List.nil_append, cnGo_cons_ne hc, cnGo_cons_ne hc]
      simp [cnGo, emitNl_zero]
    | cons d a'' =>
      have hne : (d :: a'') ≠ [] := by simp
      have hlast' : (d :: a'').getLast? ≠ some '\n' := by
        rwa [List.getLast?_cons_cons] at hlast
      by_cases hc : c = '\n'
      · subst hc
        rw [List.cons_append, cnGo_cons_nl, cnGo_cons_nl]
        exact ih hne hlast' (j + 1) Y
      · rw [List.cons_append, cnGo_cons_ne hc, cnGo_cons_ne hc, ih hne hlast' 0 Y]
        simp

theorem collapseNewlines_run (a b : List Char) (k : Nat) (hk : 3 ≤ k)
    (ha : a.getLast? ≠ some '\n') (hb : b.head? ≠ some '\n') :
    collapseNewlines (a ++ List.replicate k '\n' ++ b) =
      collapseNewlines a ++ ['\n', '\n'] ++ collapseNewlines b := by
  have hbase : cnGo 0 (List.replicate k '\n' ++ b) = ['\n', '\n'] ++ cnGo 0 b := by
    rw [cnGo_replicate]
    cases b with
    | nil => simp [cnGo, emitNl, hk]
    | cons c t =>
      have hc : c ≠ '\n' := by intro h; apply hb; simp [h]
      rw [cnGo_cons_ne hc, cnGo_cons_ne hc]
      rw [show emitNl (0 + k) = ['\n', '\n'] from by simp [emitNl, hk]]
      simp [emitNl_zero]
  cases a with
  | nil => simpa [collapseNewlines] using hbase
  | cons x a' =>
    rw [collapseNewlines, List.append_assoc, cnGo_append (x :: a') (by simp) ha 0 _, hbase]
    rw [collapseNewlines, collapseNewlines]
    simp

theorem csGo_cons_sp_false (t : List Char) : csGo false (' ' :: t) = ' ' :: csGo true t := by
  simp [csGo]

theorem csGo_cons_sp_true (t : List Char) : csGo true (' ' :: t) = csGo true t := by
  simp [csGo]

theorem csGo_cons_ne {c : Char} (hc : c ≠ ' ') (prev : Bool) (t : List Char) :
    csGo prev (c :: t) = c :: csGo false t := by
  simp [csGo, hc]

theorem csGo_true_of_head {b : List Char} (hb : b.head? ≠ some ' ') :
    csGo true b = csGo false b := by
  cases b with
  | nil => rfl
  | cons c t =>
    have hc : c ≠ ' ' := fun h => hb (by simp [h])
    rw [csGo_cons_ne hc, csGo_cons_ne hc]

theorem csGo_replicate (k : Nat) :
    ∀ b : List Char, csGo true (List.replicate k ' ' ++ b) = csGo true b := by
  induction k with
  | zero => intro b; simp
  | succ k ih =>
    intro b
    rw [List.replicate_succ, List.cons_append, csGo_cons_sp_true]
    exact ih b

theorem csGo_run {b : List Char} (hb : b.head? ≠ some ' ') (k : Nat) (hk : 1 ≤ k) :
    csGo false (List.replicate k ' ' ++ b) = ' ' :: csGo false b := by
  obtain ⟨k', rfl⟩ : ∃ k', k = k' + 1 := ⟨k - 1, by omega⟩
  rw [List.replicate_succ, List.cons_append, csGo_cons_sp_false, csGo_replicate,
    csGo_true_of_head hb]

theorem csGo_append : ∀ a : List Char, a ≠ [] → a.getLast? ≠ some ' ' →
    ∀ (prev : Bool) (Y : List Char), csGo prev (a ++ Y) = csGo prev a ++ csGo false Y := by
  intro a
  induction a with
  | nil => intro h; exact absurd rfl h
  | cons c a' ih =>
    intro _ hlast prev Y
    cases a' with
    | nil =>
      have hc : c ≠ ' ' := by intro h; apply hlast; simp [h]
      rw [List.cons_append, List.nil_append, csGo_cons_ne hc, csGo_cons_ne hc]
      simp [csGo]
    | cons d a'' =>
      have hne : (d :: a'') ≠ [] := by simp
      have hlast' : (d :: a'').getLast? ≠ some ' ' := by
        rwa [List.getLast?_cons_cons] at hlast
      by_cases hc : c = ' '
      · subst hc
        rw [List.cons_append]
        cases prev with
        | true =>
          rw [csGo_cons_sp_true, csGo_cons_sp_true]
          exact ih hne hlast' true Y
        | false =>
          rw [csGo_cons_sp_false, csGo_cons_sp_false, ih hne hlast' true Y]
          simp
      · rw [List.cons_append, csGo_cons_ne hc, csGo_cons_ne hc, ih hne hlast' false Y]
        simp

theorem collapseSpaces_run (a b : List Char) (k : Nat) (hk : 1 ≤ k)
    (ha : a.getLast? ≠ some ' ') (hb : b.head? ≠ some ' ') :
    collapseSpaces (a ++ List.replicate k ' ' ++ b) =
      collapseSpaces a ++ [' '] ++ collapseSpaces b := by
  have hbase : csGo false (List.replicate k ' ' ++ b) = [' '] ++ csGo false b := by
    rw [csGo_run hb k hk]
    rfl
  cases a with
  | nil => simpa [collapseSpaces] using hbase
  | cons x a' =>
    rw [collapseSpaces, List.append_assoc, csGo_append (x :: a') (by simp) ha false _, hbase]
    rw [collapseSpaces, collapseSpaces]
    simp

theorem containsSeq_nlT_of_replicate {j : Nat} (hj : 3 ≤ j) (x : List Char) :
    containsSeq nlT (List.replicate j '\n' ++ x) = true := by
  obtain ⟨m, rfl⟩ : ∃ m, j = 3 + m := ⟨j - 3, by omega⟩
  have h3 : List.replicate (3 + m) '\n' ++ x
      = '\n' :: '\n' :: '\n' :: (List.replicate m '\n' ++ x) := by
    rw [List.replicate_add]
    simp [List.replicate]
  rw [h3]
  simp [containsSeq, startsWithL, nlT, startsWithL_nil]

theorem cnGo_eq_self : ∀ (l : List Char) (j : Nat),
    containsSeq nlT (List.replicate j '\n' ++ l) = false →
    cnGo j l = List.replicate j '\n' ++ l := by
  intro l
  induction l with
  | nil =>
    intro j h
    have hj : ¬ 3 ≤ j := fun h3 => by
      have hx := containsSeq_nlT_of_replicate h3 ([] : List Char)
      rw [List.append_nil] at hx
      simp [hx] at h
    show emitNl j = List.replicate j '\n' ++ []
    rw [emitNl, if_neg hj, List.append_nil]
  | cons c t ih =>
    intro j h
    by_cases hc : c = '\n'
    · subst hc
      rw [cnGo_cons_nl]
      have hrep : List.replicate (j + 1) '\n' ++ t = List.replicate j '\n' ++ '\n' :: t := by
        rw [List.replicate_succ']
        simp
      rw [ih (j + 1) (by rw [hrep]; exact h), hrep]
    · have hj : ¬ 3 ≤ j := fun h3 => by simp [containsSeq_nlT_of_replicate h3] at h
      have ht : containsSeq nlT t = false := by
        cases hcon : containsSeq nlT t with
        | false => rfl
        | true =>
          have := containsSeq_append_right (List.replicate j '\n') (containsSeq_cons_of c hcon)
          simp [this] at h
      rw [cnGo_cons_ne hc, emitNl, if_neg hj, ih 0 (by simpa using ht)]
      simp

theorem collapseNewlines_eq_self {l : List Char} (h : containsSeq nlT l = false) :
    collapseNewlines l = l := by
  have := cnGo_eq_self l 0 (by simpa using h)
  simpa [collapseNewlines] using this

theorem csGo_eq_self : ∀ (l : List Char) (prev : Bool),
    (prev = true → l.head? ≠ some ' ') →
    containsSeq spT l = false → csGo prev l = l := by
  intro l
  induction l with
  | nil => intro prev _ _; cases prev <;> rfl
  | cons c t ih =>
    intro prev hprev h
    by_cases hc : c = ' '
    · subst hc
      cases prev with
      | true => exact absurd rfl (hprev rfl)
      | false =>
        rw [csGo_cons_sp_false]
        have hthead : t.head? ≠ some ' ' := by
          intro hh
          cases t with
          | nil => simp at hh
          | cons d t' =>
            simp only [List.head?_cons, Option.some.injEq] at hh
            subst hh
            have hsw : startsWithL (' ' :: ' ' :: t') spT = true := by
              simp [startsWithL, spT, startsWithL_nil]
            simp [containsSeq, hsw] at h
        rw [ih true (fun _ => hthead) (containsSeq_tail h)]
    · rw [csGo_cons_ne hc, ih false (by simp) (containsSeq_tail h)]

theorem collapseSpaces_eq_self {l : List Char} (h : containsSeq spT l = false) :
    collapseSpaces l = l :=
  csGo_eq_self l false (fun hh => nomatch hh) h

theorem startsWithL_append_reflect {q : Char → Bool} :
    ∀ (pat x y : List Char), (∀ c ∈ pat, q c = true) →
      (∀ c, y.head? = some c → q c = false) →
      startsWithL (x ++ y) pat = true → startsWithL x pat = true := by
  intro pat
  induction pat with
  | nil => intro x y _ _ _; exact startsWithL_nil x
  | cons p ps ih =>
    intro x y hq hy h
    cases x with
    | nil =>
      simp only [List.nil_append] at h
      cases y with
      | nil => simp [startsWithL] at h
      | cons d y' =>
        simp only [startsWithL, Bool.and_eq_true] at h
        have hd : d = p := by simpa using h.1
        have hqp : q p = true := hq p (by simp)
        rw [← hd, hy d rfl] at hqp
        cases hqp
    | cons c x' =>
      simp only [List.cons_append, startsWithL, Bool.and_eq_true] at h ⊢
      exact ⟨h.1, ih x' y (fun e he => hq e (by simp [he])) hy h.2⟩

theorem containsSeq_append_split {q : Char → Bool} {pat : List Char}
    (hpat : ∀ c ∈ pat, q c = true) :
    ∀ x y : List Char, (∀ c, y.head? = some c → q c = false) →
      containsSeq pat (x ++ y) = true →
      containsSeq pat x = true ∨ containsSeq pat y = true := by
  intro x
  induction x with
  | nil => intro y _ h; right; simpa using h
  | cons c x' ih =>
    intro y hy h
    simp only [List.cons_append, containsSeq, Bool.or_eq_true] at h
    rcases h with h | h
    · left
      have hsw := startsWithL_append_reflect pat (c :: x') y hpat hy
        (by simpa using h)
      simp [containsSeq, hsw]
    · rcases ih y hy h with h' | h'
      · left; exact containsSeq_cons_of c h'
      · right; exact h'

theorem emitNl_no_triple (j : Nat) : containsSeq nlT (emitNl j) = false := by
  rw [emitNl]
  by_cases h3 : 3 ≤ j
  · rw [if_pos h3]; decide
  · rw [if_neg h3]
    have : j = 0 ∨ j = 1 ∨ j = 2 := by omega
    rcases this with rfl | rfl | rfl <;> decide

theorem cnGo_no_triple : ∀ (l : List Char) (j : Nat),
    containsSeq nlT (cnGo j l) = false := by
  intro l
  induction l with
  | nil => intro j; exact emitNl_no_triple j
  | cons c t ih =>
    intro j
    by_cases hc : c = '\n'
    · subst hc; rw [cnGo_cons_nl]; exact ih (j + 1)
    · rw [cnGo_cons_ne hc]
      cases hcon : containsSeq nlT (emitNl j ++ c :: cnGo 0 t) with
      | false => rfl
      | true =>
        have hy : ∀ d, (c :: cnGo 0 t).head? = some d → (d == '\n') = false := by
          intro d hd
          simp only [List.head?_cons, Option.some.injEq] at hd
          subst hd
          simp [hc]
        rcases containsSeq_append_split (q := fun x => x == '\n') (by decide)
            (emitNl j) (c :: cnGo 0 t) hy hcon with h | h
        · simp [emitNl_no_triple j] at h
        · simp only [containsSeq, Bool.or_eq_true] at h
          rcases h with h | h
          · simp [startsWithL, nlT] at h
            exact absurd h.1 hc
          · simp [ih 0] at h

theorem collapseNewlines_no_triple (s : List Char) :
    containsSeq nlT (collapseNewlines s) = false := cnGo_no_triple s 0

theorem csGo_true_head_ne : ∀ (t : List Char) {d : Char},
    (csGo true t).head? = some d → d ≠ ' ' := by
  intro t
  induction t with
  | nil => intro d h; simp [csGo] at h
  | cons c t' ih =>
    intro d h
    by_cases hc : c = ' '
    · subst hc; rw [csGo_cons_sp_true] at h; exact ih h
    · rw [csGo_cons_ne hc] at h
      simp only [List.head?_cons, Option.some.injEq] at h
      subst h
      exact hc

theorem csGo_no_double : ∀ (l : List Char) (prev : Bool),
    containsSeq spT (csGo prev l) = false := by
  intro l
  induction l with
  | nil => intro prev; cases prev <;> decide
  | cons c t ih =>
    intro prev
    by_cases hc : c = ' '
    · subst hc
      cases prev with
      | true => rw [csGo_cons_sp_true]; exact ih true
      | false =>
        rw [csGo_cons_sp_false]
        simp only [containsSeq, Bool.or_eq_false_iff]
        constructor
        · cases hht : csGo true t with
          | nil => simp [startsWithL, spT]
          | cons d r =>
            have hd : d ≠ ' ' := csGo_true_head_ne t (by rw [hht]; rfl)
            simp [startsWithL, spT, hd]
        · exact ih true
    · rw [csGo_cons_ne hc]
      simp only [containsSeq, Bool.or_eq_false_iff]
      exact ⟨by simp [startsWithL, spT, hc], ih false⟩

theorem collapseSpaces_no_double (l : List Char) :
    containsSeq spT (collapseSpaces l) = false := csGo_no_double l false

theorem csGo_false_startsWith_nl : ∀ (t : List Char) (k : Nat),
    startsWithL (csGo false t) (List.replicate k '\n') = true →
    startsWithL t (List.replicate k '\n') = true := by
  intro t
  induction t with
  | nil =>
    intro k h
    cases k with
    | zero => exact startsWithL_nil _
    | succ k' => simp [csGo, List.replicate_succ, startsWithL] at h
  | cons c t' ih =>
    intro k h
    cases k with
    | zero => exact startsWithL_nil _
    | succ k' =>
      by_cases hc : c = ' '
      · subst hc
        rw [csGo_cons_sp_false, List.replicate_succ] at h
        simp [startsWithL] at h
      · rw [csGo_cons_ne hc, List.replicate_succ] at h
        rw [List.replicate_succ]
        simp only [startsWithL, Bool.and_eq_true] at h ⊢
        exact ⟨h.1, ih k' h.2⟩

theorem csGo_preserves_no_triple : ∀ (l : List Char) (prev : Bool),
    containsSeq nlT l = false → containsSeq nlT (csGo prev l) = false := by
  intro l
  induction l with
  | nil => intro prev _; cases prev <;> decide
  | cons c t ih =>
    intro prev h
    have ht := containsSeq_tail h
    by_cases hc : c = ' '
    · subst hc
      cases prev with
      | true => rw [csGo_cons_sp_true]; exact ih true ht
      | false =>
        rw [csGo_cons_sp_false]
        simp only [containsSeq, Bool.or_eq_false_iff]
        exact ⟨by simp [startsWithL, nlT], ih true ht⟩
    · rw [csGo_cons_ne hc]
      simp only [containsSeq, Bool.or_eq_false_iff]
      refine ⟨?_, ih false ht⟩
      by_cases hcn : c = '\n'
      · subst hcn
        cases hsw : startsWithL (csGo false t) ['\n', '\n'] with
        | false => simp [startsWithL, nlT, hsw]
        | true =>
          have h2 : startsWithL (csGo false t) (List.replicate 2 '\n') = true := by
            rw [show List.replicate 2 '\n' = ['\n', '\n'] from rfl]
            exact hsw
          have h3 := csGo_false_startsWith_nl t 2 h2
          have hsw2 : startsWithL ('\n' :: t) nlT = true := by
            simp only [nlT, startsWithL, Bool.and_eq_true]
            refine ⟨by simp, ?_⟩
            rw [show startsWithL t ['\n', '\n'] = startsWithL t (List.replicate 2 '\n') from rfl]
            exact h3
          rw [startsWithL_head_false h] at hsw2
          cases hsw2
      · simp [startsWithL, nlT, hcn]

theorem collapseSpaces_preserves_no_triple {l : List Char}
    (h : containsSeq nlT l = false) :
    containsSeq nlT (collapseSpaces l) = false := csGo_preserves_no_triple l false h

theorem clean_text_no_triple (s : List Char) : containsSeq nlT (clean_text s) = false := by
  cases hcon : containsSeq nlT (clean_text s) with
  | false => rfl
  | true =>
    have h1 : containsSeq nlT (collapseSpaces (collapseNewlines s)) = true :=
      containsSeq_pyStrip hcon
    have h0 : containsSeq nlT (collapseSpaces (collapseNewlines s)) = false :=
      collapseSpaces_preserves_no_triple (collapseNewlines_no_triple s)
    rw [h0] at h1
    cases h1

theorem clean_text_no_double (s : List Char) : containsSeq spT (clean_text s) = false := by
  cases hcon : containsSeq spT (clean_text s) with
  | false => rfl
  | true =>
    have h1 : containsSeq spT (collapseSpaces (collapseNewlines s)) = true :=
      containsSeq_pyStrip hcon
    rw [collapseSpaces_no_double] at h1
    cases h1

/-- Python `str.split(sep)` for a one-character separator (keeps empty
pieces, as Python does). -/
def splitOnChar (sep : Char) : List Char → List (List Char)
  | [] => [[]]
  | c :: t =>
    if c == sep then [] :: splitOnChar sep t
    else
      match splitOnChar sep t with
      | [] => [[c]]
      | s :: rest => (c :: s) :: rest

/-- `text.split('\n')`. -/
def splitNl (text : List Char) : List (List Char) := splitOnChar '\n' text

/-- `[line.strip() for line in text.split('\n') if line.strip()]` from
`extract_metadata` in `src/utils/text_utils.py`. -/
def pyLines (text : List Char) : List (List Char) :=
  ((splitNl text).map pyStrip).filter (fun l => !l.isEmpty)

/-- The ASCII part of `\w` in Python `re`: letters, digits, underscore. -/
def isWordChar (c : Char) : Bool := c.isAlphanum || c == '_'

/-- `re.search(r'(?i)author|^by\b', line) is not None`: the line contains
`author` (case-insensitively, anywhere), or begins with the word `by`
(case-insensitively) followed by a word boundary (non-word character or end
of line). -/
def authorPred (l : List Char) : Bool :=
  containsSeq (strL ("author")) (l.map Char.toLower) ||
  (startsWithL (l.map Char.toLower) (strL ("by")) &&
    (match l with
     | _ :: _ :: c :: _ => !isWordChar c
     | _ => true))

/-- `extract_metadata` from `src/utils/text_utils.py`, the metadata dict as
an association list: `title` = first non-blank (stripped) line if any;
`authors` = first line matching the author regex if any; no other keys. -/
def extract_metadata (text : List Char) : List (String × List Char) :=
  let lines := pyLines text
  let base : List (String × List Char) :=
    match lines.head? with
    | none => []
    | some t => [("title", t)]
  match (lines.filter authorPred).head? with
  | none => base
  | some a => base ++ [("authors", a)]

/-- Lexicographic comparison of Python strings by code point. -/
def leStr : List Char → List Char → Bool
  | [], _ => true
  | _ :: _, [] => false
  | x :: xs, y :: ys => if x == y then leStr xs ys else decide (x < y)

def insertStr (x : List Char) : List (List Char) → List (List Char)
  | [] => [x]
  | y :: ys => if leStr x y then x :: y :: ys else y :: insertStr x ys

/-- Python `list.sort()` on strings: insertion sort by code-point order. -/
def sortStrs : List (List Char) → List (List Char)
  | [] => []
  | x :: xs => insertStr x (sortStrs xs)

/-- Decimal digit characters of `n`, fuel-driven (models Python `str(i)`;
`fuel > log10 n` always holds for the fuel `n + 1` used below). -/
def natToStrGo : Nat → Nat → List Char
  | 0, _ => []
  | fuel + 1, n =>
    if n < 10 then [Nat.digitChar n]
    else natToStrGo fuel (n / 10) ++ [Nat.digitChar (n % 10)]

/-- Python `str(n)` for a natural number. -/
def natToStr (n : Nat) : String := String.mk (natToStrGo (n + 1) n)

/-- A file-system entry of the layout cache
(`storage/layout_outputs/<pdf_name>/`). -/
inductive FsNode where
  | file (name : String)
  | dir (name : String) (children : List FsNode)

def fsName : FsNode → String
  | .file n => n
  | .dir n _ => n

/-- `fnmatch` semantics of the concrete glob `page_*.jpg` used by
`PDFLoader._get_layout_info` (a `*` matches any, possibly empty, run). -/
def matchPageJpg (name : List Char) : Bool :=
  startsWithL name (strL ("page_")) && endsWithL name (strL (".jpg"))

/-- `fnmatch` semantics of the concrete glob `page{page_num}_det*.jpg`. -/
def matchPageDet (pnum : Nat) (name : List Char) : Bool :=
  startsWithL name (strL ("page") ++ (natToStr pnum).data ++ strL ("_det")) &&
    endsWithL name (strL (".jpg"))

/-- Python `int()` on a decimal string (digits only; `none` models a raised
`ValueError`). -/
def toNatGo : Nat → List Char → Option Nat
  | acc, [] => some acc
  | acc, c :: t => if c.isDigit then toNatGo (acc * 10 + (c.toNat - 48)) t else none

def toNatL : List Char → Option Nat
  | [] => none
  | c :: t => toNatGo 0 (c :: t)

/-- `int(page_file.stem.split("_")[1])` of `_get_layout_info` for a name
matching `page_*.jpg` (`.stem` drops the 4-character `.jpg` suffix). -/
def parsePageNum (name : List Char) : Option Nat :=
  match (splitOnChar '_' (name.take (name.length - 4))).get? 1 with
  | none => none
  | some ds => toNatL ds

/-- The sort key `int(x.stem.split("_")[-1])` of `_get_layout_info`. -/
def detKey (name : List Char) : Option Nat :=
  match (splitOnChar '_' (name.take (name.length - 4))).getLast? with
  | none => none
  | some ds => toNatL ds

def insertByKey (x : Nat × List Char) : List (Nat × List Char) → List (Nat × List Char)
  | [] => [x]
  | y :: ys => if x.1 ≤ y.1 then x :: y :: ys else y :: insertByKey x ys

def sortKeyed : List (Nat × List Char) → List (Nat × List Char)
  | [] => []
  | x :: xs => insertByKey x (sortKeyed xs)

/-- `sorted(element_dir.glob(...), key=lambda x: int(x.stem.split("_")[-1]))`;
`none` models the `ValueError` raised inside the key function. -/
def sortedByDet (files : List (List Char)) : Option (List (List Char)) :=
  match files.mapM (fun f => (detKey f).map (fun k => (k, f))) with
  | none => none
  | some keyed => some ((sortKeyed keyed).map Prod.snd)

/-- The `element_types` dict of `_get_layout_info`, in insertion order. -/
def elementTypes : List (String × String) :=
  [("table", "Table"), ("figure", "Figure"), ("title", "Title"),
   ("plain text", "Text Block")]

/-- Children of the entry named `n`; `[]` when the entry is absent or is a
plain file (globbing a non-directory path yields nothing). -/
def dirChildren (entries : List FsNode) (n : String) : List FsNode :=
  match entries.find? (fun e => fsName e == n) with
  | some (.dir _ ch) => ch
  | _ => []

def entryExists (entries : List FsNode) (n : String) : Bool :=
  (entries.find? (fun e => fsName e == n)).isSome

/-- The names in subdirectory `sub` matching `page{pnum}_det*.jpg`. -/
def detMatches (entries : List FsNode) (sub : String) (pnum : Nat) : List (List Char) :=
  ((dirChildren entries sub).map (fun e => (fsName e).data)).filter (matchPageDet pnum)

/-- One description string generated by `_get_layout_info`, with the exact
f-string text (including the double space of `Title` entries from the empty
number slot). -/
def describeElem (entries : List FsNode) (etype ename : String) (i pnum : Nat) :
    List Char :=
  let numPart : List Char := if etype == "title" then [] else (natToStr (i + 1)).data
  let base := strL ("[") ++ strL ename ++ strL (" ") ++ numPart ++ strL (" on page (") ++
    (natToStr (pnum + 1)).data
  if etype == ")table" then
    let c1 := if !(detMatches entries ("table_caption") pnum).isEmpty then
      strL (" with caption") else []
    let c2 := if !(detMatches entries ("table_footnote") pnum).isEmpty then
      strL (" with footnotes") else []
    base ++ c1 ++ c2 ++
      strL (". This table may contain important data or information related to the document.]")
  else if etype == "figure" then
    let c1 := if !(detMatches entries ("figure_caption") pnum).isEmpty then
      strL (" with caption") else []
    base ++ c1 ++
      strL (". This visual element may contain important information or illustrations related to the document content.]")
  else if etype == "title" then
    base ++ strL (". This may be a section or subsection heading.]")
  else
    base ++ strL (". This may contain important content.]")

/-- One element type of one page in `_get_layout_info`; `none` models the
`ValueError` raised while sorting (non-numeric det index in a crop name). -/
def processType (entries : List FsNode) (pnum : Nat) (acc : List (List Char))
    (etype ename : String) : Option (List (List Char)) :=
  if !(entryExists entries etype) then some acc
  else
    match sortedByDet (detMatches entries etype pnum) with
    | none => none
    | some els =>
      if els.isEmpty then some acc
      else some (acc ++ (List.range els.length).map
        (fun i => describeElem entries etype ename i pnum))

/-- All descriptions of one page: the four element types in order, then the
final `layout_info[page_num].sort()`.  An exception mid-way leaves the dict
entry with the descriptions appended so far, unsorted (the per-page `try`
catches it and continues). -/
def processPage (entries : List FsNode) (pnum : Nat) : List (List Char) :=
  match elementTypes.foldl
      (fun st (p : String × String) =>
        match st with
        | Except.error a => Except.error a
        | Except.ok acc =>
          match processType entries pnum acc p.1 p.2 with
          | none => Except.error acc
          | some acc' => Except.ok acc')
      (Except.ok ([] : List (List Char))) with
  | Except.ok descs => sortStrs descs
  | Except.error part => part

/-- `layout_info[page_num] = v` (Python dict assignment). -/
def upsert (m : List (Nat × List (List Char))) (k : Nat) (v : List (List Char)) :
    List (Nat × List (List Char)) :=
  if (m.lookup k).isSome then m.map (fun p => if p.1 == k then (p.1, v) else p)
  else m ++ [(k, v)]

/-- `PDFLoader._get_layout_info` from
`src/app/document_processing/pdf_loader.py`.  The cache argument is the
directory `storage/layout_outputs/<pdf_name>`: `none` when it does not
exist, otherwise its entries.  Result: the `layout_info` dict (page number
to descriptive strings) as an association list. -/
def get_layout_info (cache : Option (List FsNode)) : List (Nat × List (List Char)) :=
  match cache with
  | none => []
  | some entries =>
    (entries.filter (fun e => matchPageJpg (fsName e).data)).foldl
      (fun acc e =>
        match parsePageNum (fsName e).data with
        | none => acc
        | some pnum => upsert acc pnum (processPage entries pnum))
      []

/-- One detection box of `DocumentLayoutAnalyzer._analyze_image`. -/
structure DetBox where
  label : String
  x1 : Nat
  y1 : Nat
  x2 : Nat
  y2 : Nat

/-- `label_counts[label] = label_counts.get(label, 0) + 1`, returning the new
count. -/
def bumpCount : List (String × Nat) → String → Nat × List (String × Nat)
  | [], lab => (1, [(lab, 1)])
  | (l, k) :: rest, lab =>
    if l == lab then (k + 1, (l, k + 1) :: rest)
    else
      let r := bumpCount rest lab
      (r.1, (l, k) :: r.2)

/-- Crop file names `f"{label}_{label_index}.jpg"` produced by
`_analyze_image` for the detections of one page. -/
def cropNames (dets : List DetBox) : List String :=
  (dets.foldl
    (fun (st : List (String × Nat) × List String) det =>
      let r := bumpCount st.1 det.label
      (r.2, st.2 ++ [det.label ++ "_" ++ natToStr (r.1 - 1) ++ ".jpg"]))
    ([], [])).2

/-- The page directory `page_{i}` written by `analyze_pdf`/`_analyze_image`:
`full.jpg`, one crop per detection, `layout.json`. -/
def analyzerPage (i : Nat) (dets : List DetBox) : FsNode :=
  .dir ("page_" ++ natToStr i)
    (FsNode.file ("full.jpg") :: (cropNames dets).map FsNode.file ++
      [FsNode.file ("layout.json")])

/-- The layout-cache directory of one PDF as produced by a successful
`DocumentLayoutAnalyzer.analyze_pdf` run: one `page_{i}` subdirectory per
rendered page, nothing else. -/
def analyzerFs (pages : List (List DetBox)) : List FsNode :=
  pages.enum.map (fun p => analyzerPage p.1 p.2)

theorem natToStrGo_concat (fuel n : Nat) :
    ∃ ys c, natToStrGo (fuel + 1) n = ys ++ [c] ∧ c.isDigit = true := by
  have hdig : ∀ d : Nat, d < 10 → (Nat.digitChar d).isDigit = true := by
    intro d hd
    interval_cases d <;> decide
  rw [natToStrGo]
  by_cases h : n < 10
  · exact ⟨[], Nat.digitChar n, by rw [if_pos h]; rfl, hdig n h⟩
  · exact ⟨natToStrGo fuel (n / 10), Nat.digitChar (n % 10), by rw [if_neg h],
      hdig _ (Nat.mod_lt _ (by omega))⟩

theorem analyzerPage_not_pageJpg (i : Nat) (dets : List DetBox) :
    matchPageJpg (fsName (analyzerPage i dets)).data = false := by
  have hdata : (fsName (analyzerPage i dets)).data = strL ("page_") ++ natToStrGo (i + 1) i := rfl
  rw [hdata]
  obtain ⟨ys, c, hD, hdig⟩ := natToStrGo_concat i i
  have hcg : c ≠ 'g' := by
    intro h
    rw [h] at hdig
    cases hdig
  rw [matchPageJpg, hD]
  have hrev : (strL ("page_") ++ (ys ++ [c])).reverse = c :: (ys.reverse ++ (strL ("page_")).reverse) := by
    rw [List.reverse_append, List.reverse_append]
    simp
  rw [endsWithL, hrev]
  have : startsWithL (c :: (ys.reverse ++ (strL ("page_")).reverse)) ((strL (".jpg")).reverse) = false := by
    rw [show (strL (".jpg")).reverse = 'g' :: strL ("pj.") from rfl]
    simp [startsWithL, hcg]
  simp [this]

theorem get_layout_info_analyzer (pages : List (List DetBox)) :
    get_layout_info (some (analyzerFs pages)) = [] := by
  rw [get_layout_info]
  have hfil : (analyzerFs pages).filter (fun e => matchPageJpg (fsName e).data) = [] := by
    rw [List.filter_eq_nil_iff]
    intro e he
    rw [analyzerFs] at he
    obtain ⟨p, _, rfl⟩ := List.mem_map.mp he
    simp [analyzerPage_not_pageJpg]
  rw [hfil]
  rfl

/-- A metadata value of a loaded `Document` (Python values are strings,
ints or bools here). -/
inductive MetaVal where
  | s (v : List Char)
  | n (v : Nat)
  | b (v : Bool)
deriving DecidableEq

/-- A PDF file on disk, as seen by `PDFLoader.load_single_pdf`:
`pages` is the outcome of `self.reader.load(file_path=pdf_path)` — the page
texts, or `Except.error` when the PDF is corrupt/unreadable and the reader
raises. -/
structure PdfFileM where
  name : String
  filename : String
  path : String
  pages : Except String (List (List Char))
  size : Nat

/-- A loaded `llama_index` `Document` (text plus metadata dict). -/
structure DocM where
  text : List Char
  metadata : List (String × MetaVal)
deriving DecidableEq

/-- Page fusion in `load_single_pdf`: if the page has layout info with a
non-empty list of descriptions, append `"\n\n" + "\n".join(...)` to the page
text. -/
def pageWithLayout (linfo : List (Nat × List (List Char))) (i : Nat)
    (txt : List Char) : List Char :=
  match linfo.lookup i with
  | some descs =>
    if descs.isEmpty then txt
    else txt ++ strL ("\n\n") ++ List.intercalate (strL ("\n")) descs
  | none => txt

/-- `"\n\n".join(doc_pages)` of `load_single_pdf`: the whole fused document
text, built from the raw page texts and the cached layout info, before any
cleaning. -/
def fusedText (cache : Option (List FsNode)) (pages : List (List Char)) : List Char :=
  List.intercalate (strL ("\n\n"))
    (pages.enum.map (fun p => pageWithLayout (get_layout_info cache) p.1 p.2))

/-- `PDFLoader.load_single_pdf` from
`src/app/document_processing/pdf_loader.py`.  `cacheF` maps a PDF stem to
its layout-cache directory.  Any reader exception is caught and `none`
returned; otherwise the page texts are fused with layout info, joined,
cleaned once, and wrapped in a `Document` with heuristic plus file
metadata. -/
def load_single_pdf (cacheF : String → Option (List FsNode)) (f : PdfFileM) :
    Option DocM :=
  match f.pages with
  | Except.error _ => none
  | Except.ok pages =>
    let cache := cacheF f.name
    let cleaned := clean_text (fusedText cache pages)
    some
      { text := cleaned
        metadata :=
          (extract_metadata cleaned).map (fun kv => (kv.1, MetaVal.s kv.2)) ++
          [("source", MetaVal.s (strL f.filename)),
           ("file_path", MetaVal.s (strL f.path)),
           ("file_size", MetaVal.n f.size),
           ("file_type", MetaVal.s (strL ("pdf"))),
           ("has_layout_analysis", MetaVal.b (!(get_layout_info cache).isEmpty))] }

/-- `PDFLoader.load_all_pdfs`: loads every PDF of the directory in order and
appends each successfully loaded document. -/
def load_all_pdfs (cacheF : String → Option (List FsNode)) (files : List PdfFileM) :
    List DocM :=
  files.foldl
    (fun acc f =>
      match load_single_pdf cacheF f with
      | some d => acc ++ [d]
      | none => acc)
    []

/-- The storage directory as seen by `IndexManager.load_index`:
whether `os.path.exists(self.storage_dir)` holds, and the outcome of
`StorageContext.from_defaults` + `load_index_from_storage` (an index id, or
a raised exception). -/
structure StorageEnv where
  dirExists : Bool
  loadResult : Except String Nat

/-- `IndexManager.load_index` from `src/app/indexing/index_manager.py`: a
total function — when the directory is missing it returns `None`; when
loading raises, the exception is caught and `None` returned; otherwise the
loaded index. -/
def load_index (env : StorageEnv) : Option Nat :=
  if env.dirExists then
    match env.loadResult with
    | Except.ok i => some i
    | Except.error _ => none
  else none

/-- Environment of one `RAGService.build_index` run: the layout-analysis
outcome (a `Bool`, it never raises), the loaded documents, and the outcomes
of chunking and of index construction (`VectorStoreIndex(nodes)`, which
embeds the nodes and may raise). -/
structure BuildEnv where
  layoutOk : Bool
  docs : List Nat
  chunkResult : Except String (List Nat)
  createResult : Except String Nat

/-- Mutable state crossed by `build_index`: the index persisted on disk, the
in-memory index of the query processor, and the trace of `save_index`
calls. -/
structure BuildState where
  disk : Option Nat
  mem : Option Nat
  saves : List Nat
deriving DecidableEq

/-- `IndexManager.save_index`: persists the index to the storage directory
(overwriting what was there). -/
def save_index (st : BuildState) (idx : Nat) : BuildState :=
  { st with disk := some idx, saves := st.saves ++ [idx] }

/-- `RAGService.build_index` from `src/app/core/service.py`.  The whole body
runs in a `try` whose `except` returns `False`; a failed layout analysis
only warns; no documents → `False`; a chunking or index-creation exception
is caught, `False` is returned and `save_index` is never reached; on
success the index is saved and set on the query processor. -/
def build_index (env : BuildEnv) (st : BuildState) : Bool × BuildState :=
  if env.docs.isEmpty then (false, st)
  else
    match env.chunkResult with
    | Except.error _ => (false, st)
    | Except.ok _ =>
      match env.createResult with
      | Except.error _ => (false, st)
      | Except.ok idx =>
        let st1 := save_index st idx
        (true, { st1 with mem := some idx })

/-- A query result dict of `QueryProcessor.query`:
`{"response": ..., "sources": [...]}`. -/
structure QRes where
  response : String
  sources : List (List Char)
deriving DecidableEq

/-- `QueryProcessor.query` from `src/app/query_engine/query_processor.py`:
`None` when no index is set (no engine); otherwise the engine runs (and may
raise), and a result dict is built — even when the response has no source
nodes. -/
def qp_query (idx : Option Nat) (engine : Nat → String → Except String (String × List (List Char)))
    (q : String) : Except String (Option QRes) :=
  match idx with
  | none => Except.ok none
  | some i =>
    match engine i q with
    | Except.error e => Except.error e
    | Except.ok r => Except.ok (some ⟨r.1, r.2⟩)

/-- Environment of `RAGService.query`: the storage directory (for
`_load_existing_index`), the build environment (for the fallback
`build_index`), and the query engine behaviour. -/
structure QueryEnvM where
  storage : StorageEnv
  build : BuildEnv
  engine : Nat → String → Except String (String × List (List Char))

/-- `RAGService.query` from `src/app/core/service.py`: with no in-memory
index it first tries to load from disk, then to build; if the build fails
it returns `None` (no exception); otherwise it queries. -/
def rag_query (env : QueryEnvM) (st : BuildState) (q : String) :
    Except String (Option QRes) × BuildState :=
  if st.mem.isNone then
    match load_index env.storage with
    | some i =>
      let st' := { st with mem := some i }
      (qp_query st'.mem env.engine q, st')
    | none =>
      match build_index env.build st with
      | (false, st') => (Except.ok none, st')
      | (true, st') => (qp_query st'.mem env.engine q, st')
  else (qp_query st.mem env.engine q, st)

/-- Environment of `RAGService.analyze_layouts`: the loaded documents'
`file_path` metadata (`none` when the key is missing), `Path(...).stem`,
and the behaviour of `convert_from_path` (page count or raise) and of the
per-page detection (`page.save` + `_analyze_image`, which may raise). -/
structure LayoutEnv where
  docs : List (Option String)
  stem : String → String
  render : String → Except String Nat
  detect : String → Nat → Except String Unit

/-- The layout-output directory tree, abstracted per PDF stem: `none` means
`storage/layout_outputs/<stem>` does not exist, `some k` that it exists
with `k` entries. -/
abbrev CacheState := List (String × Nat)

def entriesOf (st : CacheState) (nm : String) : Nat :=
  match List.lookup nm st with
  | some k => k
  | none => 0

def cacheHas (st : CacheState) (nm : String) : Bool :=
  (List.lookup nm st).isSome

/-- `output_path.exists() and any(output_path.iterdir())`. -/
def cacheNonEmpty (st : CacheState) (nm : String) : Bool :=
  match List.lookup nm st with
  | some k => decide (1 ≤ k)
  | none => false

/-- `doc_output_dir.mkdir(parents=True, exist_ok=True)`. -/
def ensureDir (st : CacheState) (nm : String) : CacheState :=
  if cacheHas st nm then st else st ++ [(nm, 0)]

/-- Overwrite the entry count of an existing cache directory. -/
def setEntries (st : CacheState) (nm : String) (k : Nat) : CacheState :=
  st.map (fun p => if p.1 == nm then (p.1, k) else p)

/-- The page loop of `analyze_pdf`: page `i` creates `page_{i}` (a new entry
of the doc directory, unless left over from an earlier partial run) and
saves `full.jpg` before `_analyze_image` runs and may raise. -/
def pagesGo (env : LayoutEnv) (p : String) (nm : String) :
    Nat → Nat → CacheState → Except String Unit × CacheState
  | _, 0, st => (Except.ok (), st)
  | i, rem + 1, st =>
    let st1 := setEntries st nm (max (entriesOf st nm) (i + 1))
    match env.detect p i with
    | Except.error e => (Except.error e, st1)
    | Except.ok _ => pagesGo env p nm (i + 1) rem st1

/-- `DocumentLayoutAnalyzer.analyze_pdf` from
`src/app/document_processing/layout_analysis.py`: creates the doc output
directory, renders the PDF (which may raise), then processes each page;
exceptions propagate to the caller, the directory entries written so far
remain. -/
def analyze_pdf (env : LayoutEnv) (p : String) (st : CacheState) :
    Except String Unit × CacheState :=
  let nm := env.stem p
  let st1 := ensureDir st nm
  match env.render p with
  | Except.error e => (Except.error e, st1)
  | Except.ok n => pagesGo env p nm 0 n st1

/-- The `for doc in documents` loop of `RAGService.analyze_layouts`.  The
trace records the stem of every PDF on which `analyze_pdf` is invoked
(detection work).  A missing `file_path` is skipped with a warning; a
non-empty cache directory is skipped; an exception from `analyze_pdf`
propagates out of the loop (with the effects so far). -/
def layoutLoop (env : LayoutEnv) :
    List (Option String) → CacheState → List String →
    Except String Unit × List String × CacheState
  | [], st, tr => (Except.ok (), tr, st)
  | d :: rest, st, tr =>
    match d with
    | none => layoutLoop env rest st tr
    | some p =>
      let nm := env.stem p
      if cacheNonEmpty st nm then layoutLoop env rest st tr
      else
        match analyze_pdf env p st with
        | (Except.error e, st') => (Except.error e, tr ++ [nm], st')
        | (Except.ok _, st') => layoutLoop env rest st' (tr ++ [nm])

/-- `RAGService.analyze_layouts` from `src/app/core/service.py`: the whole
body runs in one `try`; no documents → `False`; otherwise the loop runs and
any exception is caught at batch level and reported as `False` (never
re-raised to the caller). -/
def analyze_layouts (env : LayoutEnv) (st0 : CacheState) :
    Bool × List String × CacheState :=
  if env.docs.isEmpty then (false, [], st0)
  else
    match layoutLoop env env.docs st0 [] with
    | (Except.ok _, tr, st) => (true, tr, st)
    | (Except.error _, tr, st) => (false, tr, st)

/-- The author-line criterion in the words of the specification: the line
matches, case-insensitively, the token `author`, or starts with `by `
(with a trailing space).  Kept separate from `authorPred` (the code's
regex) for comparison. -/
def specAuthorPred (l : List Char) : Bool :=
  containsSeq (strL ("author")) (l.map Char.toLower) ||
  startsWithL (l.map Char.toLower) (strL ("by "))

/-- C5: `clean_text` collapses every run of 3 or more consecutive newlines
to exactly 2 newlines, collapses every run of spaces to a single space,
and trims leading and trailing whitespace; the cleaned text contains no
triple newline and no double space; and in the pipeline `load_single_pdf`
applies `clean_text` once, to the fused document text obtained by joining
all pages (with their layout additions), not per page. -/
theorem claim_C5_clean_text_contract :
    (∀ (a b : List Char) (k : Nat), 3 ≤ k → a.getLast? ≠ some '\n' →
      b.head? ≠ some '\n' →
      collapseNewlines (a ++ List.replicate k '\n' ++ b) =
        collapseNewlines a ++ ['\n', '\n'] ++ collapseNewlines b) ∧
    (∀ (a b : List Char) (k : Nat), 1 ≤ k → a.getLast? ≠ some ' ' →
      b.head? ≠ some ' ' →
      collapseSpaces (a ++ List.replicate k ' ' ++ b) =
        collapseSpaces a ++ [' '] ++ collapseSpaces b) ∧
    (∀ (s : List Char) (c : Char),
      ((clean_text s).head? = some c → pyIsSpace c = false) ∧
      ((clean_text s).getLast? = some c → pyIsSpace c = false)) ∧
    (∀ s : List Char, containsSeq nlT (clean_text s) = false ∧
      containsSeq spT (clean_text s) = false) ∧
    (∀ (cacheF : String → Option (List FsNode)) (f : PdfFileM)
        (pages : List (List Char)), f.pages = Except.ok pages →
      (load_single_pdf cacheF f).map DocM.text =
        some (clean_text (fusedText (cacheF f.name) pages))) := by
  refine ⟨collapseNewlines_run, collapseSpaces_run, ?_, ?_, ?_⟩
  · intro s c
    exact ⟨fun h => pyStrip_head_false h, fun h => pyStrip_getLast?_false h⟩
  · intro s
    exact ⟨clean_text_no_triple s, clean_text_no_double s⟩
  · intro cacheF f pages h
    simp only [load_single_pdf, h]
    rfl

/-- Witness for C5 at concrete inputs. -/
theorem claim_C5_witness :
    (collapseNewlines (strL ("a") ++ List.replicate 4 '\n' ++ strL ("b")) =
      collapseNewlines (strL ("a")) ++ ['\n', '\n'] ++ collapseNewlines (strL ("b"))) ∧
    (collapseSpaces (strL ("x") ++ List.replicate 3 ' ' ++ strL ("y")) =
      collapseSpaces (strL ("x")) ++ [' '] ++ collapseSpaces (strL ("y"))) ∧
    pyIsSpace 'a' = false ∧
    ((load_single_pdf (fun _ => none)
        (PdfFileM.mk ("g") ("g.pdf") ("/p/g.pdf") (Except.ok [strL ("hi")]) 3)).map DocM.text =
      some (clean_text (fusedText none [strL ("hi")]))) :=
  ⟨claim_C5_clean_text_contract.1 (strL ("a")) (strL ("b")) 4 (by decide) (by decide) (by decide),
   claim_C5_clean_text_contract.2.1 (strL ("x")) (strL ("y")) 3 (by decide) (by decide) (by decide),
   (claim_C5_clean_text_contract.2.2.1 (strL (" a ")) 'a').1 (by decide),
   claim_C5_clean_text_contract.2.2.2.2 (fun _ => none)
     (PdfFileM.mk ("g") ("g.pdf") ("/p/g.pdf") (Except.ok [strL ("hi")]) 3) [strL ("hi")] rfl⟩

/-- C6: `clean_text` is idempotent: `clean_text (clean_text s) = clean_text s`
for every string `s`. -/
theorem claim_C6_clean_text_idempotent (s : List Char) :
    clean_text (clean_text s) = clean_text s := by
  have hnt : containsSeq nlT (clean_text s) = false := clean_text_no_triple s
  have hnd : containsSeq spT (clean_text s) = false := clean_text_no_double s
  have h1 : collapseNewlines (clean_text s) = clean_text s := collapseNewlines_eq_self hnt
  have h2 : collapseSpaces (clean_text s) = clean_text s := collapseSpaces_eq_self hnd
  show pyStrip (collapseSpaces (collapseNewlines (clean_text s))) = clean_text s
  rw [h1, h2]
  show pyStrip (pyStrip (collapseSpaces (collapseNewlines s)))
    = pyStrip (collapseSpaces (collapseNewlines s))
  exact pyStrip_idem _

/-- C7 (amended): for every text, `extract_metadata` produces `title` = the
first non-blank line stripped of surrounding whitespace (when one exists),
`authors` = the first (stripped) line matching the code's regex
`(?i)author|^by\b` — i.e. containing `author` case-insensitively anywhere,
or starting with the word `by` followed by a word boundary (not only
`"by "`), and no other keys. -/
theorem claim_C7_extract_metadata (text : List Char) :
    (extract_metadata text).lookup ("title") = (pyLines text).head? ∧
    (extract_metadata text).lookup ("authors") =
      ((pyLines text).filter authorPred).head? ∧
    ∀ kv ∈ extract_metadata text, kv.1 = ("title" : String) ∨ kv.1 = ("authors" : String) := by
  have hat : (("authors" : String) == ("title" : String)) = false := by decide
  have htt : (("title" : String) == ("title" : String)) = true := by decide
  have haa : (("authors" : String) == ("authors" : String)) = true := by decide
  have hta : (("title" : String) == ("authors" : String)) = false := by decide
  cases h1 : (pyLines text).head? with
  | none =>
    have hl : pyLines text = [] := by
      cases hx : pyLines text with
      | nil => rfl
      | cons a b => rw [hx] at h1; cases h1
    refine ⟨?_, ?_, ?_⟩ <;> simp [extract_metadata, hl, List.lookup]
  | some t =>
    cases h2 : ((pyLines text).filter authorPred).head? with
    | none =>
      refine ⟨?_, ?_, ?_⟩ <;>
        simp [extract_metadata, h1, h2, List.lookup, htt, hat]
    | some a =>
      refine ⟨?_, ?_, ?_⟩ <;>
        simp [extract_metadata, h1, h2, List.lookup, htt, hat, haa, hta]

/-- Counterexample to C7 as stated.  The text `"Title \nby.\nAuthor: X"` is a
fixed point of `clean_text` (a "cleaned text").  Its first non-blank line
is `"Title "`, but the code stores the stripped `"Title"`.  The only line
matching the spec's criterion (token `author` or starting with `"by "`) is
`"Author: X"`, but the code stores `"by."` (matched by `^by\b`). -/
theorem claim_C7_counterexample :
    clean_text (strL ("Title \nby.\nAuthor: X")) = strL ("Title \nby.\nAuthor: X") ∧
    ((splitNl (strL ("Title \nby.\nAuthor: X"))).filter
      (fun l => !(pyStrip l).isEmpty)).head? = some (strL ("Title ")) ∧
    (extract_metadata (strL ("Title \nby.\nAuthor: X"))).lookup ("title") =
      some (strL ("Title")) ∧
    strL ("Title") ≠ strL ("Title ") ∧
    ((pyLines (strL ("Title \nby.\nAuthor: X"))).filter specAuthorPred).head? =
      some (strL ("Author: X")) ∧
    (extract_metadata (strL ("Title \nby.\nAuthor: X"))).lookup ("authors") =
      some (strL ("by.")) ∧
    strL ("by.") ≠ strL ("Author: X") := by
  decide

/-- C2 (code divergence): for every layout cache produced by
`DocumentLayoutAnalyzer.analyze_pdf` — whatever the pages and detections —
`PDFLoader._get_layout_info` returns the empty dict: its glob `page_*.jpg`
matches nothing because the analyzer writes `page_{i}` directories (with
crops named `{label}_{k}.jpg` inside), not `page_{i}.jpg` files.  Hence the
fused text of every document equals the plain join of its raw pages:
no descriptive string is ever appended. -/
theorem claim_C2_fuser_ignores_analyzer_cache (pages : List (List DetBox)) :
    get_layout_info (some (analyzerFs pages)) = [] ∧
    ∀ pdfPages : List (List Char),
      fusedText (some (analyzerFs pages)) pdfPages =
        List.intercalate (strL ("\n\n")) pdfPages := by
  refine ⟨get_layout_info_analyzer pages, ?_⟩
  intro pdfPages
  rw [fusedText, get_layout_info_analyzer]
  have hmap : pdfPages.enum.map
      (fun p => pageWithLayout [] p.1 p.2) = pdfPages := by
    have h1 : ∀ p : Nat × List Char, pageWithLayout [] p.1 p.2 = p.2 := by
      intro p
      rfl
    calc pdfPages.enum.map (fun p => pageWithLayout [] p.1 p.2)
        = pdfPages.enum.map (fun p => p.2) := by
          apply List.map_congr_left
          intro p _
          exact h1 p
      _ = pdfPages := List.enum_map_snd pdfPages
  rw [hmap]

theorem load_all_pdfs_eq_filterMap (cacheF : String → Option (List FsNode)) :
    ∀ files : List PdfFileM,
      load_all_pdfs cacheF files = files.filterMap (load_single_pdf cacheF) := by
  have aux : ∀ (files : List PdfFileM) (acc : List DocM),
      files.foldl
        (fun acc f =>
          match load_single_pdf cacheF f with
          | some d => acc ++ [d]
          | none => acc) acc
      = acc ++ files.filterMap (load_single_pdf cacheF) := by
    intro files
    induction files with
    | nil => intro acc; simp
    | cons f fs ih =>
      intro acc
      rw [List.foldl_cons, List.filterMap_cons]
      cases h : load_single_pdf cacheF f with
      | none => simp only [h]; exact ih acc
      | some d => simp only [h]; rw [ih (acc ++ [d])]; simp
  intro files
  have := aux files []
  simpa [load_all_pdfs] using this

/-- C8: a PDF whose extraction fails yields `none` from `load_single_pdf`
and is excluded, while all other PDFs still load; `load_all_pdfs` keeps
exactly the successfully loaded documents, and `[good, corrupt, good2]`
yields exactly 2 documents. -/
theorem claim_C8_corrupt_pdf_isolated :
    (∀ (cacheF : String → Option (List FsNode)) (f : PdfFileM) (e : String),
      f.pages = Except.error e → load_single_pdf cacheF f = none) ∧
    (∀ (cacheF : String → Option (List FsNode)) (f : PdfFileM)
        (pgs : List (List Char)),
      f.pages = Except.ok pgs → (load_single_pdf cacheF f).isSome = true) ∧
    (∀ (cacheF : String → Option (List FsNode)) (files : List PdfFileM),
      load_all_pdfs cacheF files = files.filterMap (load_single_pdf cacheF)) ∧
    (∀ (cacheF : String → Option (List FsNode)) (good corrupt good2 : PdfFileM)
        (p1 p2 : List (List Char)) (e : String),
      good.pages = Except.ok p1 → corrupt.pages = Except.error e →
      good2.pages = Except.ok p2 →
      (load_all_pdfs cacheF [good, corrupt, good2]).length = 2) := by
  refine ⟨?_, ?_, ?_, ?_⟩
  · intro cacheF f e h
    simp [load_single_pdf, h]
  · intro cacheF f pgs h
    simp [load_single_pdf, h]
  · intro cacheF files
    exact load_all_pdfs_eq_filterMap cacheF files
  · intro cacheF good corrupt good2 p1 p2 e hg hc hg2
    rw [load_all_pdfs_eq_filterMap]
    simp [List.filterMap_cons, load_single_pdf, hg, hc, hg2]

/-- Witness for C8 at concrete inputs. -/
theorem claim_C8_witness :
    load_single_pdf (fun _ => none)
      (PdfFileM.mk ("c") ("c.pdf") ("/p/c.pdf") (Except.error ("bad")) 1) = none ∧
    (load_all_pdfs (fun _ => none)
      [PdfFileM.mk ("g") ("g.pdf") ("/p/g.pdf") (Except.ok [strL ("x")]) 1,
       PdfFileM.mk ("c") ("c.pdf") ("/p/c.pdf") (Except.error ("bad")) 1,
       PdfFileM.mk ("g2") ("g2.pdf") ("/p/g2.pdf") (Except.ok [strL ("y")]) 1]).length = 2 :=
  ⟨claim_C8_corrupt_pdf_isolated.1 (fun _ => none) _ ("bad") rfl,
   claim_C8_corrupt_pdf_isolated.2.2.2 (fun _ => none) _ _ _ [strL ("x")] [strL ("y")]
     ("bad") rfl rfl rfl⟩

/-- C10: `IndexManager.load_index` never propagates an exception: a missing
storage directory yields `none`, a load failure inside an existing
directory is caught and yields `none`, and an index is returned only after
a successful load. -/
theorem claim_C10_load_index_total (env : StorageEnv) :
    (env.dirExists = false → load_index env = none) ∧
    (∀ e, env.loadResult = Except.error e → load_index env = none) ∧
    (∀ i, load_index env = some i →
      env.dirExists = true ∧ env.loadResult = Except.ok i) := by
  refine ⟨?_, ?_, ?_⟩
  · intro h
    simp [load_index, h]
  · intro e h
    rw [load_index, h]
    cases env.dirExists <;> simp
  · intro i h
    rw [load_index] at h
    cases hd : env.dirExists with
    | false => rw [hd] at h; simp at h
    | true =>
      rw [hd] at h
      simp only [if_true] at h
      cases hr : env.loadResult with
      | ok j =>
        rw [hr] at h
        simp only [Option.some.injEq] at h
        exact ⟨rfl, congrArg Except.ok h⟩
      | error e =>
        rw [hr] at h
        cases h

/-- Witness for C10 at concrete storage states. -/
theorem claim_C10_witness :
    load_index (StorageEnv.mk false (Except.ok 0)) = none ∧
    load_index (StorageEnv.mk true (Except.error ("e"))) = none ∧
    ((StorageEnv.mk true (Except.ok 7)).dirExists = true ∧
      (StorageEnv.mk true (Except.ok 7)).loadResult = Except.ok 7) :=
  ⟨(claim_C10_load_index_total _).1 rfl,
   (claim_C10_load_index_total _).2.1 ("e") rfl,
   (claim_C10_load_index_total _).2.2 7 rfl⟩

/-- C9: with no in-memory index, none loadable from disk and no documents
to build one, `RAGService.query` returns `None` without raising; a query
that does execute returns a result dict (even with zero sources), so the
no-index case is distinguishable from an executed query with no relevant
results. -/
theorem claim_C9_query_no_index (env : QueryEnvM) (st : BuildState) (q : String)
    (hmem : st.mem = none) (hload : load_index env.storage = none)
    (hdocs : env.build.docs = []) :
    rag_query env st q = (Except.ok none, st) ∧
    (∀ (i : Nat) (resp : String) (srcs : List (List Char)),
      env.engine i q = Except.ok (resp, srcs) →
      qp_query (some i) env.engine q = Except.ok (some ⟨resp, srcs⟩)) := by
  constructor
  · have hb : build_index env.build st = (false, st) := by
      rw [build_index, hdocs]
      simp
    rw [rag_query, hmem, hload, hb]
    simp
  · intro i resp srcs h
    simp [qp_query, h]

/-- Witness for C9 at a concrete no-index state. -/
theorem claim_C9_witness :
    rag_query
      (QueryEnvM.mk (StorageEnv.mk false (Except.ok 0))
        (BuildEnv.mk true [] (Except.ok []) (Except.ok 0))
        (fun _ _ => Except.ok (("r"), [])))
      (BuildState.mk none none []) ("q")
      = (Except.ok none, BuildState.mk none none []) ∧
    qp_query (some 5)
      (fun _ _ => Except.ok (("r"), []))
      ("q") = Except.ok (some ⟨("r"), []⟩) :=
  ⟨(claim_C9_query_no_index
      (QueryEnvM.mk (StorageEnv.mk false (Except.ok 0))
        (BuildEnv.mk true [] (Except.ok []) (Except.ok 0))
        (fun _ _ => Except.ok (("r"), [])))
      (BuildState.mk none none []) ("q") rfl rfl rfl).1,
   (claim_C9_query_no_index
      (QueryEnvM.mk (StorageEnv.mk false (Except.ok 0))
        (BuildEnv.mk true [] (Except.ok []) (Except.ok 0))
        (fun _ _ => Except.ok (("r"), [])))
      (BuildState.mk none none []) ("q") rfl rfl rfl).2 5 ("r") [] rfl⟩

/-- C3: if index creation (including embedding) fails, `build_index`
returns `False` — reported, not raised — with the persisted index, the
in-memory index and the save trace untouched (`save_index` is never
called); in general the persisted index changes only when the build
succeeds, and then to the newly created index. -/
theorem claim_C3_build_index_atomic (env : BuildEnv) (st : BuildState) :
    (∀ e, env.createResult = Except.error e → build_index env st = (false, st)) ∧
    (∀ b st', build_index env st = (b, st') →
      (st'.disk = st.disk ∧ st'.saves = st.saves) ∨
      (b = true ∧ ∃ i, env.createResult = Except.ok i ∧ st'.disk = some i ∧
        st'.saves = st.saves ++ [i])) := by
  constructor
  · intro e he
    rw [build_index]
    cases env.docs.isEmpty with
    | true => simp
    | false =>
      cases hc : env.chunkResult with
      | error e2 => simp
      | ok nodes => simp [he]
  · intro b st' h
    rw [build_index] at h
    by_cases hD : env.docs.isEmpty = true
    · rw [if_pos hD] at h
      simp only [Prod.mk.injEq] at h
      obtain ⟨hb, hst⟩ := h
      subst hb
      subst hst
      exact Or.inl ⟨rfl, rfl⟩
    · rw [if_neg hD] at h
      cases hc : env.chunkResult with
      | error e2 =>
        rw [hc] at h
        simp only [Prod.mk.injEq] at h
        obtain ⟨hb, hst⟩ := h
        subst hb
        subst hst
        exact Or.inl ⟨rfl, rfl⟩
      | ok nodes =>
        rw [hc] at h
        cases hcr : env.createResult with
        | error e2 =>
          rw [hcr] at h
          simp only [Prod.mk.injEq] at h
          obtain ⟨hb, hst⟩ := h
          subst hb
          subst hst
          exact Or.inl ⟨rfl, rfl⟩
        | ok idx =>
          rw [hcr] at h
          simp only [Prod.mk.injEq] at h
          obtain ⟨hb, hst⟩ := h
          subst hb
          subst hst
          exact Or.inr ⟨rfl, idx, rfl, rfl, rfl⟩

/-- Witness for C3 at concrete build states. -/
theorem claim_C3_witness :
    build_index (BuildEnv.mk true [1] (Except.ok [1]) (Except.error ("embed fail")))
      (BuildState.mk (some 9) none []) =
      (false, BuildState.mk (some 9) none []) ∧
    (((BuildState.mk (some 3) (some 3) [3]).disk = (BuildState.mk (some 9) none []).disk ∧
        (BuildState.mk (some 3) (some 3) [3]).saves = (BuildState.mk (some 9) none []).saves) ∨
      (true = true ∧ ∃ i,
        (BuildEnv.mk true [1] (Except.ok [1]) (Except.ok 3)).createResult = Except.ok i ∧
        (BuildState.mk (some 3) (some 3) [3]).disk = some i ∧
        (BuildState.mk (some 3) (some 3) [3]).saves =
          (BuildState.mk (some 9) none []).saves ++ [i])) :=
  ⟨(claim_C3_build_index_atomic _ _).1 ("embed fail") rfl,
   (claim_C3_build_index_atomic
      (BuildEnv.mk true [1] (Except.ok [1]) (Except.ok 3))
      (BuildState.mk (some 9) none [])).2 true (BuildState.mk (some 3) (some 3) [3]) rfl⟩

/-- A concrete layout batch: two analyzable documents, rendering fails for
the first. -/
def envC1 : LayoutEnv :=
  LayoutEnv.mk [some ("a"), some ("b")] id
    (fun p => if p == ("a") then Except.error ("render failure") else Except.ok 1)
    (fun _ _ => Except.ok ())

/-- Counterexample to C1 as stated: with two documents in the batch and a
rendering failure on the first, `analyze_layouts` returns `False` (caught,
not raised), but the detection trace is `["a"]` only — the second
document is never analyzed, so the failing document is not "skipped with
analysis continuing for the remaining documents". -/
theorem claim_C1_counterexample :
    analyze_layouts envC1 [] = (false, [("a" : String)], [(("a" : String), 0)]) ∧
    ("b" : String) ∉ (analyze_layouts envC1 []).2.1 := by
  decide

/-- C1 (amended): a document without `file_path` metadata is skipped and the
loop continues; but when `analyze_pdf` raises on a document, the exception
aborts the loop at that document (later documents are not analyzed) and is
caught by the batch-level handler of `analyze_layouts`, which returns
`False` to the caller instead of raising. -/
theorem claim_C1_failure_aborts_batch (env : LayoutEnv) (st0 st st' : CacheState)
    (tr : List String) (p : String) (post : List (Option String)) (e : String) :
    (layoutLoop env (none :: post) st tr = layoutLoop env post st tr) ∧
    (cacheNonEmpty st (env.stem p) = false →
      analyze_pdf env p st = (Except.error e, st') →
      layoutLoop env (some p :: post) st tr =
        (Except.error e, tr ++ [env.stem p], st')) ∧
    (∀ (tr2 : List String) (st2 : CacheState), env.docs ≠ [] →
      layoutLoop env env.docs st0 [] = (Except.error e, tr2, st2) →
      analyze_layouts env st0 = (false, tr2, st2)) := by
  refine ⟨rfl, ?_, ?_⟩
  · intro hmiss hfail
    simp [layoutLoop, hmiss, hfail]
  · intro tr2 st2 hne hloop
    have hni : env.docs.isEmpty = false := by
      cases hd : env.docs with
      | nil => exact absurd hd hne
      | cons a b => rfl
    rw [analyze_layouts, hni]
    simp [hloop]

/-- Witness for the amended C1 at the concrete failing batch. -/
theorem claim_C1_witness :
    layoutLoop envC1 [some ("a"), some ("b")] [] [] =
      (Except.error ("render failure"), [] ++ [envC1.stem ("a")], [(("a" : String), 0)]) ∧
    analyze_layouts envC1 [] =
      (false, [("a" : String)], [(("a" : String), 0)]) :=
  ⟨(claim_C1_failure_aborts_batch envC1 [] [] [(("a" : String), 0)] [] ("a")
      [some ("b")] ("render failure")).2.1 rfl rfl,
   (claim_C1_failure_aborts_batch envC1 [] [] [(("a" : String), 0)] [] ("a")
      [some ("b")] ("render failure")).2.2 [("a" : String)] [(("a" : String), 0)]
      (by decide) rfl⟩

theorem lookup_cons_eq (s k : String) (v : Nat) (l : List (String × Nat)) :
    List.lookup s ((k, v) :: l) = if s == k then some v else List.lookup s l := by
  cases h : s == k <;> simp [List.lookup, h]

theorem lookup_setEntries_ne : ∀ (st : CacheState) {nm s : String} (k : Nat),
    s ≠ nm → List.lookup s (setEntries st nm k) = List.lookup s st := by
  intro st
  induction st with
  | nil => intro nm s k _; rfl
  | cons a rest ih =>
    intro nm s k h
    obtain ⟨a1, a2⟩ := a
    show List.lookup s
      ((if a1 == nm then (a1, k) else (a1, a2)) :: setEntries rest nm k) = _
    by_cases ha : a1 = nm
    · rw [if_pos (by simp [ha])]
      have hs : (s == a1) = false := by simp [ha, h]
      rw [lookup_cons_eq, lookup_cons_eq, if_neg (by simp [hs]), if_neg (by simp [hs])]
      exact ih k h
    · rw [if_neg (by simp [ha])]
      rw [lookup_cons_eq, lookup_cons_eq]
      cases hs : s == a1 with
      | true => simp
      | false => simp only [Bool.false_eq_true, if_false]; exact ih k h

theorem lookup_setEntries_self : ∀ (st : CacheState) (nm : String) (k : Nat),
    cacheHas st nm = true → List.lookup nm (setEntries st nm k) = some k := by
  intro st
  induction st with
  | nil =>
    intro nm k h
    rw [cacheHas] at h
    cases h
  | cons a rest ih =>
    intro nm k h
    obtain ⟨a1, a2⟩ := a
    show List.lookup nm
      ((if a1 == nm then (a1, k) else (a1, a2)) :: setEntries rest nm k) = some k
    by_cases ha : a1 = nm
    · rw [if_pos (by simp [ha])]
      rw [lookup_cons_eq, if_pos (by simp [ha])]
    · rw [if_neg (by simp [ha])]
      rw [lookup_cons_eq, if_neg (by simp [Ne.symm ha])]
      apply ih
      rw [cacheHas] at h ⊢
      rw [lookup_cons_eq, if_neg (by simp [Ne.symm ha])] at h
      exact h

theorem lookup_append_single_ne {st : CacheState} {nm s : String}
    (h : s ≠ nm) : List.lookup s (st ++ [(nm, 0)]) = List.lookup s st := by
  induction st with
  | nil =>
    rw [List.nil_append, lookup_cons_eq, if_neg (by simp [h])]
  | cons a rest ih =>
    obtain ⟨a1, a2⟩ := a
    rw [List.cons_append, lookup_cons_eq, lookup_cons_eq]
    cases hs : s == a1 with
    | true => simp
    | false => simp only [Bool.false_eq_true, if_false]; exact ih

theorem lookup_append_single_self {st : CacheState} {nm : String}
    (h : List.lookup nm st = none) : List.lookup nm (st ++ [(nm, 0)]) = some 0 := by
  induction st with
  | nil =>
    rw [List.nil_append, lookup_cons_eq, if_pos (by simp)]
  | cons a rest ih =>
    obtain ⟨a1, a2⟩ := a
    rw [lookup_cons_eq] at h
    rw [List.cons_append, lookup_cons_eq]
    cases hs : nm == a1 with
    | true => rw [hs] at h; simp at h
    | false =>
      rw [hs] at h
      simp only [Bool.false_eq_true, if_false] at h ⊢
      exact ih h

theorem lookup_ensureDir_ne {st : CacheState} {nm s : String} (h : s ≠ nm) :
    List.lookup s (ensureDir st nm) = List.lookup s st := by
  rw [ensureDir]
  by_cases hc : cacheHas st nm = true
  · rw [if_pos hc]
  · rw [if_neg hc]
    exact lookup_append_single_ne h

theorem cacheHas_ensureDir (st : CacheState) (nm : String) :
    cacheHas (ensureDir st nm) nm = true := by
  rw [ensureDir]
  by_cases hc : cacheHas st nm = true
  · rw [if_pos hc]; exact hc
  · rw [if_neg hc]
    have hnone : List.lookup nm st = none := by
      rw [cacheHas] at hc
      cases hl : List.lookup nm st with
      | none => rfl
      | some k => rw [hl] at hc; simp at hc
    rw [cacheHas, lookup_append_single_self hnone]
    rfl

theorem entriesOf_congr {st st' : CacheState} {s : String}
    (h : List.lookup s st' = List.lookup s st) : entriesOf st' s = entriesOf st s := by
  simp only [entriesOf, h]

theorem cacheNonEmpty_congr {st st' : CacheState} {s : String}
    (h : List.lookup s st' = List.lookup s st) :
    cacheNonEmpty st' s = cacheNonEmpty st s := by
  simp only [cacheNonEmpty, h]

theorem entriesOf_setEntries_self (st : CacheState) (nm : String) (k : Nat)
    (h : cacheHas st nm = true) : entriesOf (setEntries st nm k) nm = k := by
  simp only [entriesOf, lookup_setEntries_self st nm k h]

theorem cacheNonEmpty_of {st : CacheState} {nm : String}
    (hh : cacheHas st nm = true) (he : 1 ≤ entriesOf st nm) :
    cacheNonEmpty st nm = true := by
  simp only [cacheNonEmpty]
  cases hl : List.lookup nm st with
  | none => rw [cacheHas, hl] at hh; cases hh
  | some k =>
    simp only [entriesOf, hl] at he
    exact decide_eq_true he

theorem pagesGo_succ (env : LayoutEnv) (p nm : String) (i r : Nat) (st : CacheState) :
    pagesGo env p nm i (r + 1) st =
      match env.detect p i with
      | Except.error e =>
        (Except.error e, setEntries st nm (max (entriesOf st nm) (i + 1)))
      | Except.ok _ =>
        pagesGo env p nm (i + 1) r (setEntries st nm (max (entriesOf st nm) (i + 1))) := rfl

theorem pagesGo_ok (env : LayoutEnv) (p nm : String)
    (hd : ∀ i, env.detect p i = Except.ok ()) :
    ∀ (rem i : Nat) (st : CacheState), cacheHas st nm = true →
      ∃ st', pagesGo env p nm i rem st = (Except.ok (), st') ∧
        (∀ s, s ≠ nm → List.lookup s st' = List.lookup s st) ∧
        cacheHas st' nm = true ∧
        entriesOf st nm ≤ entriesOf st' nm ∧
        (1 ≤ rem → 1 ≤ entriesOf st' nm) := by
  intro rem
  induction rem with
  | zero =>
    intro i st hhas
    exact ⟨st, rfl, fun _ _ => rfl, hhas, Nat.le_refl _, fun h => absurd h (by omega)⟩
  | succ r ih =>
    intro i st hhas
    have hhas1 : cacheHas (setEntries st nm (max (entriesOf st nm) (i + 1))) nm = true := by
      rw [cacheHas, lookup_setEntries_self st nm _ hhas]
      rfl
    have hent1 : entriesOf (setEntries st nm (max (entriesOf st nm) (i + 1))) nm
        = max (entriesOf st nm) (i + 1) := entriesOf_setEntries_self st nm _ hhas
    obtain ⟨st', heq, hne, hhas', hmono, _⟩ :=
      ih (i + 1) (setEntries st nm (max (entriesOf st nm) (i + 1))) hhas1
    refine ⟨st', ?_, ?_, hhas', ?_, ?_⟩
    · rw [pagesGo_succ, hd i]
      exact heq
    · intro s hs
      rw [hne s hs, lookup_setEntries_ne st _ hs]
    · calc entriesOf st nm ≤ max (entriesOf st nm) (i + 1) := Nat.le_max_left _ _
        _ ≤ entriesOf st' nm := by rw [← hent1]; exact hmono
    · intro _
      calc 1 ≤ i + 1 := by omega
        _ ≤ max (entriesOf st nm) (i + 1) := Nat.le_max_right _ _
        _ ≤ entriesOf st' nm := by rw [← hent1]; exact hmono

theorem analyze_pdf_eq (env : LayoutEnv) (p : String) (st : CacheState) :
    analyze_pdf env p st =
      match env.render p with
      | Except.error e => (Except.error e, ensureDir st (env.stem p))
      | Except.ok n => pagesGo env p (env.stem p) 0 n (ensureDir st (env.stem p)) := rfl

theorem analyze_pdf_ok (env : LayoutEnv) (p : String) (st : CacheState)
    (hr : ∃ n, env.render p = Except.ok n ∧ 1 ≤ n)
    (hd : ∀ i, env.detect p i = Except.ok ()) :
    ∃ st', analyze_pdf env p st = (Except.ok (), st') ∧
      (∀ s, s ≠ env.stem p → List.lookup s st' = List.lookup s st) ∧
      cacheNonEmpty st' (env.stem p) = true := by
  obtain ⟨n, hrender, hn⟩ := hr
  have h1 : cacheHas (ensureDir st (env.stem p)) (env.stem p) = true :=
    cacheHas_ensureDir st (env.stem p)
  obtain ⟨st', heq, hne, hhas', _, hpos⟩ :=
    pagesGo_ok env p (env.stem p) hd n 0 (ensureDir st (env.stem p)) h1
  refine ⟨st', ?_, ?_, ?_⟩
  · rw [analyze_pdf_eq, hrender]
    exact heq
  · intro s hs
    rw [hne s hs, lookup_ensureDir_ne hs]
  · exact cacheNonEmpty_of hhas' (hpos hn)

theorem layoutLoop_ok (env : LayoutEnv)
    (hrender : ∀ p, ∃ n, env.render p = Except.ok n ∧ 1 ≤ n)
    (hdetect : ∀ p i, env.detect p i = Except.ok ()) :
    ∀ (docs : List (Option String)) (st : CacheState) (tr : List String),
      (∀ d ∈ docs, d ≠ none) →
      ∃ tr' st',
        layoutLoop env docs st tr = (Except.ok (), tr ++ tr', st') ∧
        (∀ s, cacheNonEmpty st s = true →
          tr'.count s = 0 ∧ cacheNonEmpty st' s = true) ∧
        (∀ s, cacheNonEmpty st s = false →
          s ∈ (docs.filterMap id).map env.stem →
          tr'.count s = 1 ∧ cacheNonEmpty st' s = true) := by
  intro docs
  induction docs with
  | nil =>
    intro st tr _
    refine ⟨[], st, by simp [layoutLoop], fun s hs => ⟨rfl, hs⟩, ?_⟩
    intro s _ hmem
    simp at hmem
  | cons d rest ih =>
    intro st tr hdocs
    cases d with
    | none => exact absurd rfl (hdocs none (by simp))
    | some p =>
      have hrest : ∀ d ∈ rest, d ≠ none := fun d hd => hdocs d (by simp [hd])
      by_cases hhit : cacheNonEmpty st (env.stem p) = true
      · obtain ⟨tr', st', heq, hQ1, hQ2⟩ := ih st tr hrest
        refine ⟨tr', st', ?_, hQ1, ?_⟩
        · rw [show layoutLoop env (some p :: rest) st tr = layoutLoop env rest st tr from by
            simp [layoutLoop, hhit]]
          exact heq
        · intro s hs hmem
          have hmem2 : s = env.stem p ∨ s ∈ (rest.filterMap id).map env.stem := by
            simpa using hmem
          rcases hmem2 with hps | hmem'
          · rw [hps, hhit] at hs
            cases hs
          · exact hQ2 s hs hmem'
      · have hfalse : cacheNonEmpty st (env.stem p) = false := by
          cases hx : cacheNonEmpty st (env.stem p) with
          | true => exact absurd hx hhit
          | false => rfl
        obtain ⟨st1, haeq, hane, hanon⟩ := analyze_pdf_ok env p st (hrender p) (hdetect p)
        obtain ⟨tr2, st', heq, hQ1, hQ2⟩ := ih st1 (tr ++ [env.stem p]) hrest
        refine ⟨[env.stem p] ++ tr2, st', ?_, ?_, ?_⟩
        · rw [show layoutLoop env (some p :: rest) st tr
              = layoutLoop env rest st1 (tr ++ [env.stem p]) from by
            simp [layoutLoop, hfalse, haeq]]
          rw [heq, List.append_assoc]
        · intro s hs
          have hsne : s ≠ env.stem p := by
            intro hcontra
            rw [hcontra, hfalse] at hs
            cases hs
          have hs1 : cacheNonEmpty st1 s = true := by
            rw [cacheNonEmpty_congr (hane s hsne)]
            exact hs
          obtain ⟨hc0, hnon⟩ := hQ1 s hs1
          refine ⟨?_, hnon⟩
          rw [List.count_append, hc0]
          simp [List.count_cons, hsne]
        · intro s hs hmem
          by_cases hsp : s = env.stem p
          · have h1 : cacheNonEmpty st1 s = true := by rw [hsp]; exact hanon
            obtain ⟨hc0, hnon⟩ := hQ1 s h1
            refine ⟨?_, hnon⟩
            rw [List.count_append, hc0]
            simp [List.count_cons, hsp]
          · have hs1 : cacheNonEmpty st1 s = false := by
              rw [cacheNonEmpty_congr (hane s hsp)]
              exact hs
            have hmem' : s ∈ (rest.filterMap id).map env.stem := by
              have hmem2 : s = env.stem p ∨ s ∈ (rest.filterMap id).map env.stem := by
                simpa using hmem
              rcases hmem2 with h | h
              · exact absurd h hsp
              · exact h
            obtain ⟨hc1, hnon⟩ := hQ2 s hs1 hmem'
            refine ⟨?_, hnon⟩
            rw [List.count_append, hc1]
            simp [List.count_cons, hsp]

/-- C4: a PDF whose layout-cache directory exists and is non-empty is
skipped immediately by the batch loop (cache hit: no re-detection, no
partial-invalidation check); consequently, running layout analysis twice
over the same documents (all analyzable, each with at least one page)
performs detection on each PDF exactly once in the first run and zero
times in the second. -/
theorem claim_C4_layout_cache_single_detection (env : LayoutEnv)
    (st0 : CacheState) (s : String)
    (hdocs : ∀ d ∈ env.docs, d ≠ none)
    (hrender : ∀ p, ∃ n, env.render p = Except.ok n ∧ 1 ≤ n)
    (hdetect : ∀ p i, env.detect p i = Except.ok ())
    (hmem : s ∈ (env.docs.filterMap id).map env.stem)
    (hmiss : cacheNonEmpty st0 s = false) :
    (∀ (st : CacheState) (tr : List String) (p : String)
        (post : List (Option String)),
      cacheNonEmpty st (env.stem p) = true →
      layoutLoop env (some p :: post) st tr = layoutLoop env post st tr) ∧
    (analyze_layouts env st0).1 = true ∧
    ((analyze_layouts env st0).2.1).count s = 1 ∧
    ((analyze_layouts env ((analyze_layouts env st0).2.2)).2.1).count s = 0 := by
  have hne : env.docs.isEmpty = false := by
    cases hd : env.docs with
    | nil => rw [hd] at hmem; simp at hmem
    | cons a b => rfl
  obtain ⟨tr1, st1, heq1, _, hQ2a⟩ :=
    layoutLoop_ok env hrender hdetect env.docs st0 [] hdocs
  have hrun1 : analyze_layouts env st0 = (true, [] ++ tr1, st1) := by
    rw [analyze_layouts, hne]
    simp [heq1]
  obtain ⟨hc1, hnon1⟩ := hQ2a s hmiss hmem
  obtain ⟨tr2, st2, heq2, hQ1b, _⟩ :=
    layoutLoop_ok env hrender hdetect env.docs st1 [] hdocs
  have hrun2 : analyze_layouts env st1 = (true, [] ++ tr2, st2) := by
    rw [analyze_layouts, hne]
    simp [heq2]
  obtain ⟨hc2, _⟩ := hQ1b s hnon1
  refine ⟨?_, ?_, ?_, ?_⟩
  · intro st tr p post hhit
    simp [layoutLoop, hhit]
  · rw [hrun1]
  · rw [hrun1]
    simpa using hc1
  · rw [hrun1]
    show ((analyze_layouts env st1).2.1).count s = 0
    rw [hrun2]
    simpa using hc2

/-- A concrete layout batch for the C4 witness: two analyzable one-page
documents. -/
def envC4 : LayoutEnv :=
  LayoutEnv.mk [some ("a"), some ("b")] id (fun _ => Except.ok 1)
    (fun _ _ => Except.ok ())

/-- Witness for C4 at a concrete batch. -/
theorem claim_C4_witness :
    (layoutLoop envC4 (some ("a") :: []) [(("a" : String), 1)] [] =
      layoutLoop envC4 [] [(("a" : String), 1)] []) ∧
    (analyze_layouts envC4 []).1 = true ∧
    ((analyze_layouts envC4 []).2.1).count ("a") = 1 ∧
    ((analyze_layouts envC4 ((analyze_layouts envC4 []).2.2)).2.1).count ("a") = 0 := by
  have h := claim_C4_layout_cache_single_detection envC4 [] ("a")
    (by decide)
    (fun _ => ⟨1, rfl, Nat.le_refl 1⟩)
    (fun _ _ => rfl)
    (by decide)
    rfl
  exact ⟨h.1 [(("a" : String), 1)] [] ("a") [] (by decide), h.2.1, h.2.2.1, h.2.2.2⟩

end RAG
